import Mathlib

/-!
Verification of the `urandom` randomness library.

The definitions below are shallow embeddings of the Rust sources:
machine integers become `Nat` with explicit reduction modulo `2^w`,
floating point values become an exact model (`FloatVal`) with IEEE-754
classes, and the generator loops become explicit recursion over the
list of raw words drawn from the generator.
-/

namespace Urandom

/-- Modulus of 32-bit words. -/
def M32 : Nat := 0x100000000

/-- Modulus of 64-bit words. -/
def M64 : Nat := 0x10000000000000000

/-- `u32::rotate_left`: bit rotation of a 32-bit word (`x < 2^32`). -/
def rotl32 (x n : Nat) : Nat := ((x <<< n) % M32) ||| (x >>> (32 - n))

/-- `u64::rotate_left`: bit rotation of a 64-bit word (`x < 2^64`). -/
def rotl64 (x n : Nat) : Nat := ((x <<< n) % M64) ||| (x >>> (64 - n))

/-! ## ChaCha20 block function, from `src/rng/chacha20/scalar.rs`

The `quarter_round!` macro performs add / xor / rotate-left by
16, 12, 8, 7 on four words; `block` copies the state into a working
matrix, runs 10 iterations of column rounds followed by diagonal
rounds (20 rounds total), and adds the original state back in.
-/

/-- One `quarter_round!(a, b, c, d)` from `src/rng/chacha20/scalar.rs`. -/
def quarterRound (a b c d : Nat) : Nat × Nat × Nat × Nat :=
  let a := (a + b) % M32
  let d := rotl32 (d ^^^ a) 16
  let c := (c + d) % M32
  let b := rotl32 (b ^^^ c) 12
  let a := (a + b) % M32
  let d := rotl32 (d ^^^ a) 8
  let c := (c + d) % M32
  let b := rotl32 (b ^^^ c) 7
  (a, b, c, d)

/-- One iteration of the round loop in `block`: the four column
quarter-rounds followed by the four diagonal quarter-rounds. -/
def doubleRound (s : List Nat) : List Nat :=
  match s with
  | [x0, x1, x2, x3, x4, x5, x6, x7, x8, x9, x10, x11, x12, x13, x14, x15] =>
    -- column rounds
    let (x0, x4, x8, x12) := quarterRound x0 x4 x8 x12
    let (x1, x5, x9, x13) := quarterRound x1 x5 x9 x13
    let (x2, x6, x10, x14) := quarterRound x2 x6 x10 x14
    let (x3, x7, x11, x15) := quarterRound x3 x7 x11 x15
    -- diagonal rounds
    let (x0, x5, x10, x15) := quarterRound x0 x5 x10 x15
    let (x1, x6, x11, x12) := quarterRound x1 x6 x11 x12
    let (x2, x7, x8, x13) := quarterRound x2 x7 x8 x13
    let (x3, x4, x9, x14) := quarterRound x3 x4 x9 x14
    [x0, x1, x2, x3, x4, x5, x6, x7, x8, x9, x10, x11, x12, x13, x14, x15]
  | _ => s

/-- `n` iterations of the round loop. -/
def chachaRounds : Nat → List Nat → List Nat
  | 0, s => s
  | n + 1, s => chachaRounds n (doubleRound s)

/-- The output block of `block` in `src/rng/chacha20/scalar.rs`:
20 rounds (10 double rounds) followed by the feed-forward addition of
the input state. -/
def chacha20Block (state : List Nat) : List Nat :=
  let ws := chachaRounds 10 state
  List.zipWith (fun a b => (a + b) % M32) ws state

/-- The four constant words `CONSTANT` shared by both ChaCha modules. -/
def chachaConstant : List Nat := [0x61707865, 0x3320646e, 0x79622d32, 0x6b206574]

/-- The state whose key, counter and stream words are all zero. -/
def chachaZeroState : List Nat := chachaConstant ++ [0, 0, 0, 0, 0, 0, 0, 0, 0, 0, 0, 0]

/-! ## SplitMix64 and Xoshiro256, from `src/rng/splitmix64.rs` and
`src/rng/xoshiro256.rs` -/

/-- `GOLDEN_GAMMA` from `src/rng/splitmix64.rs`. -/
def GOLDEN_GAMMA : Nat := 0x9e3779b97f4a7c15

/-- `mix64` from `src/rng/splitmix64.rs`: three xor-shift/multiply rounds. -/
def mix64 (z : Nat) : Nat :=
  let z := ((z ^^^ (z >>> 30)) * 0xbf58476d1ce4e5b9) % M64
  let z := ((z ^^^ (z >>> 27)) * 0x94d049bb133111eb) % M64
  z ^^^ (z >>> 31)

/-- `next` from `src/rng/splitmix64.rs`: advance the state by
`GOLDEN_GAMMA` and mix. Returns (new state, output). -/
def splitmixNext (x : Nat) : Nat × Nat :=
  let x := (x + GOLDEN_GAMMA) % M64
  (x, mix64 x)

/-- `Xoshiro256::from_seed`: expand a 64-bit seed into the four state
words with four `SplitMix64::next_u64` calls. -/
def xoshiro256FromSeed (seed : Nat) : List Nat :=
  let (x, s0) := splitmixNext (seed % M64)
  let (x, s1) := splitmixNext x
  let (x, s2) := splitmixNext x
  let (_, s3) := splitmixNext x
  [s0, s1, s2, s3]

/-- `advance` from `src/rng/xoshiro256.rs`: the xoshiro256 state recurrence. -/
def xoshiroAdvance (s : List Nat) : List Nat :=
  match s with
  | [s0, s1, s2, s3] =>
    let t := (s1 <<< 17) % M64
    let s2 := s2 ^^^ s0
    let s3 := s3 ^^^ s1
    let s1 := s1 ^^^ s2
    let s0 := s0 ^^^ s3
    let s2 := s2 ^^^ t
    let s3 := rotl64 s3 45
    [s0, s1, s2, s3]
  | _ => s

/-- `next_plus`: result is `s[0] + s[3]` (wrapping), then advance. -/
def xoshiroNextPlus (s : List Nat) : Nat × List Nat :=
  ((s.getD 0 0 + s.getD 3 0) % M64, xoshiroAdvance s)

/-- `Xoshiro256::next_u32`: high 32 bits of `next_plus`. -/
def xoshiroNextU32 (s : List Nat) : Nat × List Nat :=
  let (r, s) := xoshiroNextPlus s
  (r >>> 32, s)

end Urandom

namespace Urandom

/-! ## Per-type instantiation tables of the uniform integer sampler

`impl_uniform_int!` is instantiated once per integer type.  The tables
below transcribe which raw-word method (`next_u32`/`next_u64`) and which
widening multiply (`wmul32`: `u32 × u32 → u64`, i.e. a 64-bit wide
product; `wmul64`: `u64 × u64 → u128`, i.e. a 128-bit wide product)
each instantiation uses.
-/

/-- The Rust integer types instantiated by `impl_uniform_int!`, with the
pointer-size types split by `target_pointer_width`. -/
inductive RustIntTy where
  | i8 | u8 | i16 | u16 | i32 | u32 | i64 | u64
  | isize32 | usize32 | isize64 | usize64
deriving DecidableEq

/-- Bit width of each Rust integer type (pointer types by platform). -/
def tyWidth : RustIntTy → Nat
  | .i8 => 8 | .u8 => 8 | .i16 => 16 | .u16 => 16
  | .i32 => 32 | .u32 => 32 | .i64 => 64 | .u64 => 64
  | .isize32 => 32 | .usize32 => 32 | .isize64 => 64 | .usize64 => 64

/-- Whether the type is `usize`/`isize`. -/
def tyIsSize : RustIntTy → Bool
  | .isize32 => true | .usize32 => true | .isize64 => true | .usize64 => true
  | _ => false

/-- Raw-word width drawn per attempt in `src/distr/uniform/int.rs`
(lines 102-124): `next_u32` for 8/16-bit types, `next_u64` otherwise. -/
def distrRawWidth : RustIntTy → Nat
  | .i8 => 32 | .u8 => 32 | .i16 => 32 | .u16 => 32
  | .i32 => 64 | .u32 => 64 | .i64 => 64 | .u64 => 64
  | .isize32 => 64 | .usize32 => 64 | .isize64 => 64 | .usize64 => 64

/-- Full-product width of the `$wmul` used in `src/distr/uniform/int.rs`
(lines 102-124): `wmul32` computes in `u64`, `wmul64` in `u128`. -/
def distrMulWidth : RustIntTy → Nat
  | .i8 => 64 | .u8 => 64 | .i16 => 64 | .u16 => 64
  | .i32 => 128 | .u32 => 128 | .i64 => 128 | .u64 => 128
  | .isize32 => 128 | .usize32 => 128 | .isize64 => 128 | .usize64 => 128

/-- Raw-word width drawn per attempt in the older
`src/distributions/uniform/int.rs` (lines 155-177). -/
def distributionsRawWidth : RustIntTy → Nat
  | .i8 => 32 | .u8 => 32 | .i16 => 32 | .u16 => 32
  | .i32 => 32 | .u32 => 32 | .i64 => 64 | .u64 => 64
  | .isize32 => 64 | .usize32 => 64 | .isize64 => 64 | .usize64 => 64

/-- Full-product width of the `WideMul::wmul` used in the older
`src/distributions/uniform/int.rs`: the raw word's `wmul` widens
`u32 → u64` and `u64 → u128`. -/
def distributionsMulWidth : RustIntTy → Nat
  | .i8 => 64 | .u8 => 64 | .i16 => 64 | .u16 => 64
  | .i32 => 64 | .u32 => 64 | .i64 => 128 | .u64 => 128
  | .isize32 => 128 | .usize32 => 128 | .isize64 => 128 | .usize64 => 128

end Urandom

/-- C2: the 20-round ChaCha block function applied to the state whose
key, counter and stream words are all zero (the four constant words in
place) produces the documented 16-word block, whose first two words are
`0xade0b876` and `0x903df1a0`. -/
theorem chacha20_block_zero_test_vector :
    Urandom.chacha20Block Urandom.chachaZeroState =
      [0xade0b876, 0x903df1a0, 0xe56a5d40, 0x28bd8653,
       0xb819d2bd, 0x1aed8da0, 0xccef36a8, 0xc70d778b,
       0x7c5941da, 0x8d485751, 0x3fe02477, 0x374ad8b8,
       0xf4b8436a, 0x1ca11815, 0x69b687c3, 0x8665eeb2] := by
  decide

/-- C6: seeding `Xoshiro256` with `from_seed(42)` (which expands the
seed into four state words via `SplitMix64`) and calling `next_u32`
once yields exactly `368317477`. -/
theorem xoshiro256_from_seed_42_first_u32 :
    (Urandom.xoshiroNextU32 (Urandom.xoshiro256FromSeed 42)).fst = 368317477 := by
  decide

/-- C5 counterexample: in the current sampler (`src/distr/uniform/int.rs`)
the 32-bit types use the 128-bit wide multiplication (`wmul64` on
`next_u64` words), so the claim that widths of 32 bits and below use the
64-bit wide multiplication is false at `u32`. -/
theorem uniform_int_width_routing_cx :
    Urandom.tyWidth Urandom.RustIntTy.u32 ≤ 32 ∧
    Urandom.distrMulWidth Urandom.RustIntTy.u32 ≠ 64 := by
  decide

/-- C5 (amended): in `src/distr/uniform/int.rs` widths below 32 bits use
the 64-bit wide multiplication on 32-bit raw words while widths of 32
bits and above use the 128-bit wide multiplication on 64-bit raw words;
in the older `src/distributions/uniform/int.rs` widths of 32 bits and
below use the 64-bit wide multiplication on 32-bit raw words and widths
above 32 bits the 128-bit one; in both modules `usize`/`isize` are
routed through the 64-bit raw-word path on every platform. -/
theorem uniform_int_width_routing :
    ∀ ty : Urandom.RustIntTy,
      (Urandom.tyWidth ty < 32 →
        Urandom.distrMulWidth ty = 64 ∧ Urandom.distrRawWidth ty = 32) ∧
      (32 ≤ Urandom.tyWidth ty →
        Urandom.distrMulWidth ty = 128 ∧ Urandom.distrRawWidth ty = 64) ∧
      (Urandom.tyWidth ty ≤ 32 ∧ Urandom.tyIsSize ty = false →
        Urandom.distributionsMulWidth ty = 64 ∧ Urandom.distributionsRawWidth ty = 32) ∧
      (32 < Urandom.tyWidth ty →
        Urandom.distributionsMulWidth ty = 128 ∧ Urandom.distributionsRawWidth ty = 64) ∧
      (Urandom.tyIsSize ty = true →
        Urandom.distrRawWidth ty = 64 ∧ Urandom.distributionsRawWidth ty = 64) := by
  intro ty
  cases ty <;> decide

namespace Urandom

/-! ## ChaCha `jump`, from `src/rng/chacha.rs` (new module) and
`src/rng/chacha20.rs` (old module) -/

/-- Number of state words, `NWORDS` in `src/rng/chacha.rs`. -/
def NWORDS : Nat := 16

/-- The `!0u32` sentinel used for an exhausted output block. -/
def SENTINEL : Nat := 0xffffffff

/-- `increment_stream` from `src/rng/chacha.rs` (lines 233-239): words
14 and 15 form a little-endian 64-bit stream identifier which is
incremented by one (wrapping). -/
def incrementStream (s : List Nat) : List Nat :=
  match s with
  | [x0, x1, x2, x3, x4, x5, x6, x7, x8, x9, x10, x11, x12, x13, x14, x15] =>
    let stream := (x15 <<< 32) ||| x14
    let stream := (stream + 1) % M64
    [x0, x1, x2, x3, x4, x5, x6, x7, x8, x9, x10, x11, x12, x13,
     stream &&& 0xffffffff, stream >>> 32]
  | _ => s

/-- The fields of `ChaCha<N>` in `src/rng/chacha.rs`: cipher state,
buffer cursor and output buffer. -/
structure ChaChaGen where
  state : List Nat
  index : Nat
  random : List Nat

/-- `ChaCha::jump` from `src/rng/chacha.rs` (lines 154-158): increment
the stream identifier and mark the output buffer exhausted. -/
def chachaJump (g : ChaChaGen) : ChaChaGen :=
  { state := incrementStream g.state, index := NWORDS, random := g.random }

/-- The 64-bit stream identifier held in state words 14 (low) and 15 (high). -/
def chachaStream (s : List Nat) : Nat := s.getD 15 0 * 2 ^ 32 + s.getD 14 0

/-- `increment_counter` from `src/rng/chacha20.rs` (lines 161-169):
words 12..15 hold a little-endian 128-bit counter incremented by one. -/
def chacha20IncrementCounter (s : List Nat) : List Nat :=
  match s with
  | [x0, x1, x2, x3, x4, x5, x6, x7, x8, x9, x10, x11, x12, x13, x14, x15] =>
    let counter := x12 + x13 * 2 ^ 32 + x14 * 2 ^ 64 + x15 * 2 ^ 96
    let counter := (counter + 1) % 2 ^ 128
    [x0, x1, x2, x3, x4, x5, x6, x7, x8, x9, x10, x11,
     counter % 2 ^ 32, counter / 2 ^ 32 % 2 ^ 32, counter / 2 ^ 64 % 2 ^ 32,
     counter / 2 ^ 96]
  | _ => s

/-- `ChaCha20::jump` from `src/rng/chacha20.rs` (lines 141-149), state
part: generate one block (`chacha20_block` also increments the
counter), then XOR both block halves into the eight key words. -/
def chacha20JumpOldState (s : List Nat) : List Nat :=
  match chacha20IncrementCounter s, chacha20Block s with
  | [y0, y1, y2, y3, y4, y5, y6, y7, y8, y9, y10, y11, y12, y13, y14, y15],
    [t0, t1, t2, t3, t4, t5, t6, t7, t8, t9, t10, t11, t12, t13, t14, t15] =>
    [y0, y1, y2, y3,
     y4 ^^^ t0 ^^^ t8, y5 ^^^ t1 ^^^ t9, y6 ^^^ t2 ^^^ t10, y7 ^^^ t3 ^^^ t11,
     y8 ^^^ t4 ^^^ t12, y9 ^^^ t5 ^^^ t13, y10 ^^^ t6 ^^^ t14, y11 ^^^ t7 ^^^ t15,
     y12, y13, y14, y15]
  | y, _ => y

/-- The state built by `ChaCha20::from_seed(0)` in `src/rng/chacha20.rs`:
constants, zero key, counter word 12 set to one. -/
def chacha20Seed0State : List Nat :=
  chachaConstant ++ [0, 0, 0, 0, 0, 0, 0, 0, 1, 0, 0, 0]

end Urandom

/-- C4 counterexample: `ChaCha20::jump` in the older `src/rng/chacha20.rs`
(lines 141-149) does not increment the stream words and does not leave
the key words unchanged: on the `from_seed(0)` state it rewrites key
word 4 and leaves state words 14 and 15 at zero. -/
theorem chacha20_old_jump_cx :
    (Urandom.chacha20JumpOldState Urandom.chacha20Seed0State).getD 4 0 ≠
      Urandom.chacha20Seed0State.getD 4 0 ∧
    (Urandom.chacha20JumpOldState Urandom.chacha20Seed0State).getD 14 0 =
      Urandom.chacha20Seed0State.getD 14 0 ∧
    (Urandom.chacha20JumpOldState Urandom.chacha20Seed0State).getD 15 0 =
      Urandom.chacha20Seed0State.getD 15 0 := by
  decide

/-- C4 (amended): for the current generator `ChaCha<N>` in
`src/rng/chacha.rs`, `jump` increments the 64-bit stream identifier
(state words 14 and 15) by exactly one and leaves the four constant
words, the eight key words and the two counter words (the first 14
state words) unchanged; the only other modification is setting the
output-buffer cursor to the exhausted sentinel, with the buffered block
itself untouched.  (The legacy `ChaCha20::jump` in `src/rng/chacha20.rs`
instead regenerates a block and XORs it into the key words, see the
counterexample.) -/
theorem chacha_jump_increments_stream (g : Urandom.ChaChaGen)
    (x0 x1 x2 x3 x4 x5 x6 x7 x8 x9 x10 x11 x12 x13 x14 x15 : Nat)
    (hs : g.state = [x0, x1, x2, x3, x4, x5, x6, x7, x8, x9, x10, x11, x12, x13, x14, x15])
    (h14 : x14 < 2 ^ 32) (h15 : x15 < 2 ^ 32) :
    (Urandom.chachaJump g).state.take 14 = g.state.take 14 ∧
    Urandom.chachaStream (Urandom.chachaJump g).state =
      (Urandom.chachaStream g.state + 1) % Urandom.M64 ∧
    (Urandom.chachaJump g).index = Urandom.NWORDS ∧
    (Urandom.chachaJump g).random = g.random := by
  obtain ⟨st, idx, rnd⟩ := g
  have hs2 : st = [x0, x1, x2, x3, x4, x5, x6, x7, x8, x9, x10, x11, x12, x13, x14, x15] := hs
  subst hs2
  have hor : (x15 <<< 32) ||| x14 = x15 * 2 ^ 32 + x14 := by
    rw [Nat.shiftLeft_eq, mul_comm x15 (2 ^ 32), ← Nat.mul_add_lt_is_or h14 x15]
  have hmask : (0xffffffff : Nat) = 2 ^ 32 - 1 := by norm_num
  refine ⟨rfl, ?_, rfl, rfl⟩
  show ((((x15 <<< 32 ||| x14) + 1) % Urandom.M64) >>> 32) * 2 ^ 32 +
      ((((x15 <<< 32 ||| x14) + 1) % Urandom.M64) &&& 0xffffffff) =
      (x15 * 2 ^ 32 + x14 + 1) % Urandom.M64
  rw [hor, hmask, Nat.and_pow_two_sub_one_eq_mod, Nat.shiftRight_eq_div_pow]
  omega

/-- Witness for the `jump` frame theorem at a concrete generator state. -/
theorem chacha_jump_increments_stream_witness :
    ((Urandom.ChaChaGen.mk [1, 2, 3, 4, 5, 6, 7, 8, 9, 10, 11, 12, 13, 14, 15, 16] 3 []).state =
        [1, 2, 3, 4, 5, 6, 7, 8, 9, 10, 11, 12, 13, 14, 15, 16] ∧
      (15 : Nat) < 2 ^ 32 ∧ (16 : Nat) < 2 ^ 32) ∧
    ((Urandom.chachaJump ⟨[1, 2, 3, 4, 5, 6, 7, 8, 9, 10, 11, 12, 13, 14, 15, 16], 3, []⟩).state.take 14 =
        (Urandom.ChaChaGen.mk [1, 2, 3, 4, 5, 6, 7, 8, 9, 10, 11, 12, 13, 14, 15, 16] 3 []).state.take 14 ∧
      Urandom.chachaStream (Urandom.chachaJump ⟨[1, 2, 3, 4, 5, 6, 7, 8, 9, 10, 11, 12, 13, 14, 15, 16], 3, []⟩).state =
        (Urandom.chachaStream (Urandom.ChaChaGen.mk [1, 2, 3, 4, 5, 6, 7, 8, 9, 10, 11, 12, 13, 14, 15, 16] 3 []).state + 1) %
          Urandom.M64 ∧
      (Urandom.chachaJump ⟨[1, 2, 3, 4, 5, 6, 7, 8, 9, 10, 11, 12, 13, 14, 15, 16], 3, []⟩).index = Urandom.NWORDS ∧
      (Urandom.chachaJump ⟨[1, 2, 3, 4, 5, 6, 7, 8, 9, 10, 11, 12, 13, 14, 15, 16], 3, []⟩).random =
        (Urandom.ChaChaGen.mk [1, 2, 3, 4, 5, 6, 7, 8, 9, 10, 11, 12, 13, 14, 15, 16] 3 []).random) :=
  ⟨⟨rfl, by norm_num, by norm_num⟩,
    chacha_jump_increments_stream _ 1 2 3 4 5 6 7 8 9 10 11 12 13 14 15 16 rfl
      (by norm_num) (by norm_num)⟩

namespace Urandom

/-! ## Exact model of IEEE-754 floating point values

A floating point value is NaN, a signed infinity, or a finite value,
modelled as an exact rational.  Finite results of arithmetic are kept
exact rather than rounded (a superset of the representable doubles);
overflow to infinity at the IEEE round-to-nearest overflow threshold is
modelled, and the sign of zero is not tracked.
-/

/-- An IEEE-754 value: NaN, infinity (`true` = negative), or an exact
finite rational. -/
inductive FloatVal where
  | nan : FloatVal
  | inf : Bool → FloatVal
  | fin : ℚ → FloatVal
deriving DecidableEq

/-- Largest finite `f64`, `(2 - 2^-52) * 2^1023`. -/
def maxF64 : ℚ := (2 ^ 53 - 1) * 2 ^ 971

namespace FloatVal

/-- `f64::is_finite`. -/
def isFinite : FloatVal → Bool
  | fin _ => true
  | _ => false

/-- IEEE-754 `<=`: false whenever either operand is NaN. -/
def fle : FloatVal → FloatVal → Bool
  | nan, _ => false
  | _, nan => false
  | inf true, _ => true
  | inf false, inf false => true
  | inf false, _ => false
  | fin _, inf b => !b
  | fin q, fin r => decide (q ≤ r)

/-- IEEE-754 `<`: false whenever either operand is NaN. -/
def flt : FloatVal → FloatVal → Bool
  | nan, _ => false
  | _, nan => false
  | inf true, inf true => false
  | inf true, _ => true
  | inf false, _ => false
  | fin _, inf b => !b
  | fin q, fin r => decide (q < r)

/-- Model of `f64` subtraction: exact on finite operands, overflowing
to infinity at the IEEE round-to-nearest-even threshold
`2^1024 - 2^970` and saturating to `maxF64` just below it. -/
def fsub : FloatVal → FloatVal → FloatVal
  | nan, _ => nan
  | _, nan => nan
  | inf s, inf t => if s = t then nan else inf s
  | inf s, fin _ => inf s
  | fin _, inf t => inf (!t)
  | fin a, fin b =>
    let d := a - b
    if (2 : ℚ) ^ 1024 - 2 ^ 970 ≤ abs d then inf (decide (d < 0))
    else if maxF64 < abs d then fin (if d < 0 then -maxF64 else maxF64)
    else fin d

/-- Model of `f64` division (used only to build `lambda_inverse`):
exact quotient on finite operands; the sign of zero is not tracked, so
a finite value divided by zero gives the infinity of the numerator's
sign. -/
def fdiv : FloatVal → FloatVal → FloatVal
  | nan, _ => nan
  | _, nan => nan
  | inf _, inf _ => nan
  | inf s, fin b => if b < 0 then inf (!s) else inf s
  | fin _, inf _ => fin 0
  | fin a, fin b =>
    if b = 0 then (if a = 0 then nan else inf (decide (a < 0)))
    else fin (a / b)

end FloatVal

/-- Decode an IEEE-754 bit pattern with `mb` mantissa bits, `eb`
exponent bits and exponent bias `bias` into its exact value. -/
def decodeIeee (mb eb bias bits : Nat) : FloatVal :=
  let s := bits >>> (mb + eb)
  let e := (bits >>> mb) &&& (2 ^ eb - 1)
  let m := bits &&& (2 ^ mb - 1)
  let sign : ℚ := if s == 1 then -1 else 1
  if e = 2 ^ eb - 1 then (if m = 0 then .inf (s == 1) else .nan)
  else if e = 0 then .fin (sign * ((m : ℚ) / 2 ^ mb) * (2 : ℚ) ^ (1 - (bias : ℤ)))
  else .fin (sign * (((2 ^ mb + m : Nat) : ℚ) / 2 ^ mb) * (2 : ℚ) ^ ((e : ℤ) - bias))

/-- `f64::from_bits` composed with the exact value of the double. -/
def decodeF64 (bits : Nat) : FloatVal := decodeIeee 52 11 1023 bits

/-- `f32::from_bits` composed with the exact value of the float. -/
def decodeF32 (bits : Nat) : FloatVal := decodeIeee 23 8 127 bits

end Urandom

namespace Urandom

/-! ## The bias-free unit interval sampler, from `src/distr/float01.rs`
and `src/rng/util.rs` -/

/-- `u64::leading_zeros`. -/
def lz64 (n : Nat) : Nat := if n = 0 then 64 else 63 - Nat.log2 n

/-- Bit pattern built by `rng_f64` in `src/rng/util.rs`: exponent field
1023 with the word's top 52 bits as mantissa, a double in `[1, 2)`. -/
def rngF64Bits (w : Nat) : Nat := (1023 <<< 52) ||| (w >>> 12)

/-- Bit pattern built by `rng_f32` in `src/rng/util.rs`. -/
def rngF32Bits (w : Nat) : Nat := (127 <<< 23) ||| (w >>> 9)

/-- `replace_exponent_f64` from `src/distr/float01.rs` at the bit level. -/
def replaceExponentF64 (valueBits exp : Nat) : Nat :=
  let mantissa := valueBits &&& ((1 <<< 52) - 1)
  (exp <<< 52) ||| mantissa

/-- `replace_exponent_f32` from `src/distr/float01.rs` at the bit level. -/
def replaceExponentF32 (valueBits exp : Nat) : Nat :=
  let mantissa := valueBits &&& ((1 <<< 23) - 1)
  (exp <<< 23) ||| mantissa

/-- Bit pattern of `Float01`'s `f64` sample from the two raw 64-bit
words: exponent `1022 - leading_zeros(w1)`, mantissa from `next_f64(w2)`. -/
def float01F64Bits (w1 w2 : Nat) : Nat :=
  let exp := 1022 - lz64 w1
  replaceExponentF64 (rngF64Bits w2) exp

/-- Bit pattern of `Float01`'s `f32` sample: exponent
`126 - leading_zeros(w1)` from a raw 64-bit word, mantissa from
`next_f32(w3)` with `w3` the raw 32-bit word. -/
def float01F32Bits (w1 w3 : Nat) : Nat :=
  let exp := 126 - lz64 w1
  replaceExponentF32 (rngF32Bits w3) exp

/-- Joining a shifted exponent field with a smaller mantissa is plain
addition. -/
theorem or_shift_eq_add (e k m : Nat) (hm : m < 2 ^ k) :
    (e <<< k) ||| m = e * 2 ^ k + m := by
  rw [Nat.shiftLeft_eq, mul_comm e (2 ^ k), ← Nat.mul_add_lt_is_or hm e, mul_comm]

/-- The mantissa selected by `replace_exponent_f64` is the word's top
52 bits. -/
theorem rngF64Bits_mantissa (w : Nat) (hw : w < 2 ^ 64) :
    rngF64Bits w &&& ((1 <<< 52) - 1) = w >>> 12 := by
  have hlt : w >>> 12 < 2 ^ 52 := by
    rw [Nat.shiftRight_eq_div_pow]
    exact Nat.div_lt_of_lt_mul (by norm_num at hw ⊢; omega)
  rw [rngF64Bits, or_shift_eq_add 1023 52 _ hlt]
  have h1 : (1 : Nat) <<< 52 = 2 ^ 52 := by rw [Nat.shiftLeft_eq, one_mul]
  rw [h1, Nat.and_pow_two_sub_one_eq_mod, add_comm (1023 * 2 ^ 52) (w >>> 12),
    Nat.add_mul_mod_self_right]
  exact Nat.mod_eq_of_lt hlt

/-- The mantissa selected by `replace_exponent_f32` is the word's top
23 bits. -/
theorem rngF32Bits_mantissa (w : Nat) (hw : w < 2 ^ 32) :
    rngF32Bits w &&& ((1 <<< 23) - 1) = w >>> 9 := by
  have hlt : w >>> 9 < 2 ^ 23 := by
    rw [Nat.shiftRight_eq_div_pow]
    exact Nat.div_lt_of_lt_mul (by norm_num at hw ⊢; omega)
  rw [rngF32Bits, or_shift_eq_add 127 23 _ hlt]
  have h1 : (1 : Nat) <<< 23 = 2 ^ 23 := by rw [Nat.shiftLeft_eq, one_mul]
  rw [h1, Nat.and_pow_two_sub_one_eq_mod, add_comm (127 * 2 ^ 23) (w >>> 9),
    Nat.add_mul_mod_self_right]
  exact Nat.mod_eq_of_lt hlt

end Urandom

namespace Urandom

/-- Decoding a bit pattern assembled from a normal (not zero, not
all-ones) exponent field `e` and a mantissa `m`. -/
theorem decodeIeee_normal (mb eb bias e m : Nat) (he0 : 0 < e)
    (heTop : e < 2 ^ eb - 1) (hm : m < 2 ^ mb) :
    decodeIeee mb eb bias (e * 2 ^ mb + m) =
      .fin ((((2 ^ mb + m : Nat) : ℚ) / 2 ^ mb) * (2 : ℚ) ^ ((e : ℤ) - bias)) := by
  have hpow : 0 < 2 ^ mb := Nat.pos_pow_of_pos mb (by norm_num)
  have hbits : e * 2 ^ mb + m < 2 ^ (mb + eb) := by
    have he : e + 1 ≤ 2 ^ eb := by omega
    calc e * 2 ^ mb + m < (e + 1) * 2 ^ mb := by
          rw [add_mul, one_mul]; omega
      _ ≤ 2 ^ eb * 2 ^ mb := Nat.mul_le_mul_right _ he
      _ = 2 ^ (mb + eb) := by rw [← pow_add, add_comm]
  have hs : (e * 2 ^ mb + m) >>> (mb + eb) = 0 := by
    rw [Nat.shiftRight_eq_div_pow]
    exact Nat.div_eq_of_lt hbits
  have hdiv : (e * 2 ^ mb + m) / 2 ^ mb = e := by
    rw [add_comm, Nat.add_mul_div_right _ _ hpow, Nat.div_eq_of_lt hm, zero_add]
  have he2 : (e * 2 ^ mb + m) >>> mb &&& (2 ^ eb - 1) = e := by
    rw [Nat.shiftRight_eq_div_pow, hdiv, Nat.and_pow_two_sub_one_eq_mod]
    exact Nat.mod_eq_of_lt (by omega)
  have hmod : (e * 2 ^ mb + m) &&& (2 ^ mb - 1) = m := by
    rw [Nat.and_pow_two_sub_one_eq_mod, add_comm, Nat.add_mul_mod_self_right]
    exact Nat.mod_eq_of_lt hm
  rw [decodeIeee]
  simp only [hs, he2, hmod]
  rw [if_neg (by omega), if_neg (by omega)]
  norm_num

/-- The decoded value of a pattern whose exponent field is below the
bias lies strictly between 0 and 1. -/
theorem decodeIeee_normal_val_bounds (mb bias e m : Nat) (hbias : e < bias)
    (hm : m < 2 ^ mb) :
    0 < (((2 ^ mb + m : Nat) : ℚ) / 2 ^ mb) * (2 : ℚ) ^ ((e : ℤ) - bias) ∧
    (((2 ^ mb + m : Nat) : ℚ) / 2 ^ mb) * (2 : ℚ) ^ ((e : ℤ) - bias) < 1 := by
  have hpowQ : (0 : ℚ) < 2 ^ mb := by positivity
  have hnum : (0 : ℚ) < ((2 ^ mb + m : Nat) : ℚ) := by
    exact_mod_cast Nat.pos_of_ne_zero (by positivity)
  constructor
  · have : (0 : ℚ) < (2 : ℚ) ^ ((e : ℤ) - bias) := zpow_pos (by norm_num) _
    positivity
  · set d : Nat := bias - e with hd
    have hd1 : 1 ≤ d := by omega
    have hde : (e : ℤ) - bias = -(d : ℤ) := by
      simp only [hd]
      omega
    rw [hde, zpow_neg, zpow_natCast, ← div_eq_mul_inv, div_div]
    rw [div_lt_one (by positivity)]
    have hmQ : (m : ℚ) < 2 ^ mb := by exact_mod_cast hm
    have : ((2 ^ mb + m : Nat) : ℚ) = 2 ^ mb + (m : ℚ) := by push_cast; ring
    rw [this]
    calc (2 : ℚ) ^ mb + (m : ℚ) < 2 ^ mb + 2 ^ mb := by linarith
      _ = 2 ^ mb * 2 ^ 1 := by ring
      _ ≤ 2 ^ mb * 2 ^ d := by
          have : (2 : ℚ) ^ 1 ≤ 2 ^ d := by
            exact pow_le_pow_right (by norm_num) hd1
          nlinarith [hpowQ]

end Urandom

namespace Urandom

/-- Leading zeros of a 64-bit word never exceed 64. -/
theorem lz64_le_64 (w : Nat) : lz64 w ≤ 64 := by
  rw [lz64]; split <;> omega

/-- High 52 bits of a 64-bit word fit in 52 bits. -/
theorem shr12_lt (w : Nat) (hw : w < 2 ^ 64) : w >>> 12 < 2 ^ 52 := by
  rw [Nat.shiftRight_eq_div_pow]
  exact Nat.div_lt_of_lt_mul (by norm_num at hw ⊢; omega)

/-- High 23 bits of a 32-bit word fit in 23 bits. -/
theorem shr9_lt (w : Nat) (hw : w < 2 ^ 32) : w >>> 9 < 2 ^ 23 := by
  rw [Nat.shiftRight_eq_div_pow]
  exact Nat.div_lt_of_lt_mul (by norm_num at hw ⊢; omega)

/-- The `f64` unit-interval sample decodes to a rational strictly
between 0 and 1, for every pair of raw words. -/
theorem float01F64_val_bounds (w1 w2 : Nat) (h2 : w2 < 2 ^ 64) :
    ∃ q : ℚ, decodeF64 (float01F64Bits w1 w2) = .fin q ∧ 0 < q ∧ q < 1 := by
  have hlz := lz64_le_64 w1
  have hp11 : (2 : Nat) ^ 11 = 2048 := by norm_num
  have he0 : 0 < 1022 - lz64 w1 := by omega
  have heTop : 1022 - lz64 w1 < 2 ^ 11 - 1 := by omega
  have hm : w2 >>> 12 < 2 ^ 52 := shr12_lt w2 h2
  have hbits : float01F64Bits w1 w2 = (1022 - lz64 w1) * 2 ^ 52 + w2 >>> 12 := by
    simp only [float01F64Bits, replaceExponentF64]
    rw [rngF64Bits_mantissa w2 h2, or_shift_eq_add _ _ _ hm]
  rw [decodeF64, hbits, decodeIeee_normal 52 11 1023 _ _ he0 heTop hm]
  exact ⟨_, rfl, decodeIeee_normal_val_bounds 52 1023 _ _ (by omega) hm⟩

/-- The `f32` unit-interval sample decodes to a rational strictly
between 0 and 1, for every pair of raw words. -/
theorem float01F32_val_bounds (w1 w3 : Nat) (h3 : w3 < 2 ^ 32) :
    ∃ q : ℚ, decodeF32 (float01F32Bits w1 w3) = .fin q ∧ 0 < q ∧ q < 1 := by
  have hlz := lz64_le_64 w1
  have hp8 : (2 : Nat) ^ 8 = 256 := by norm_num
  have he0 : 0 < 126 - lz64 w1 := by omega
  have heTop : 126 - lz64 w1 < 2 ^ 8 - 1 := by omega
  have hm : w3 >>> 9 < 2 ^ 23 := shr9_lt w3 h3
  have hbits : float01F32Bits w1 w3 = (126 - lz64 w1) * 2 ^ 23 + w3 >>> 9 := by
    simp only [float01F32Bits, replaceExponentF32]
    rw [rngF32Bits_mantissa w3 h3, or_shift_eq_add _ _ _ hm]
  rw [decodeF32, hbits, decodeIeee_normal 23 8 127 _ _ he0 heTop hm]
  exact ⟨_, rfl, decodeIeee_normal_val_bounds 23 127 _ _ (by omega) hm⟩

end Urandom

/-- C3: for every pair of raw generator words, the bias-free
unit-interval sampler `Float01` produces a value strictly between 0 and
1, in both its `f64` instance (leading-zero word `w1`, mantissa word
`w2`) and its `f32` instance (leading-zero word `w1`, mantissa word
`w3` from `next_u32`); it never returns exactly 0.0 or 1.0. -/
theorem float01_never_zero_or_one (w1 w2 w3 : Nat) (h2 : w2 < 2 ^ 64)
    (h3 : w3 < 2 ^ 32) :
    (∃ q : ℚ, Urandom.decodeF64 (Urandom.float01F64Bits w1 w2) =
        Urandom.FloatVal.fin q ∧ 0 < q ∧ q < 1) ∧
    (∃ q : ℚ, Urandom.decodeF32 (Urandom.float01F32Bits w1 w3) =
        Urandom.FloatVal.fin q ∧ 0 < q ∧ q < 1) :=
  ⟨Urandom.float01F64_val_bounds w1 w2 h2, Urandom.float01F32_val_bounds w1 w3 h3⟩

/-- Witness for the unit-interval bounds at the all-zero raw words. -/
theorem float01_never_zero_or_one_witness :
    ((0 : Nat) < 2 ^ 64 ∧ (0 : Nat) < 2 ^ 32) ∧
    ((∃ q : ℚ, Urandom.decodeF64 (Urandom.float01F64Bits 0 0) =
        Urandom.FloatVal.fin q ∧ 0 < q ∧ q < 1) ∧
     (∃ q : ℚ, Urandom.decodeF32 (Urandom.float01F32Bits 0 0) =
        Urandom.FloatVal.fin q ∧ 0 < q ∧ q < 1)) :=
  ⟨⟨by norm_num, by norm_num⟩,
    float01_never_zero_or_one 0 0 0 (by norm_num) (by norm_num)⟩

namespace Urandom

/-- `Bernoulli::sample` from `src/distr/bernoulli.rs`: draw a `Float01`
`f64` sample and compare it against the stored probability with `<=`. -/
def bernoulliSample (p : FloatVal) (w1 w2 : Nat) : Bool :=
  FloatVal.fle (decodeF64 (float01F64Bits w1 w2)) p

end Urandom

/-- C8: for every stored probability `p` and every raw generator words,
`Bernoulli::new(p)` sampling returns `true` whenever `p >= 1.0` and
`false` whenever `p <= 0.0` (in IEEE comparison, so NaN satisfies
neither hypothesis). -/
theorem bernoulli_extreme_p (p : Urandom.FloatVal) (w1 w2 : Nat)
    (h2 : w2 < 2 ^ 64) :
    (Urandom.FloatVal.fle (.fin 1) p = true →
      Urandom.bernoulliSample p w1 w2 = true) ∧
    (Urandom.FloatVal.fle p (.fin 0) = true →
      Urandom.bernoulliSample p w1 w2 = false) := by
  obtain ⟨q, hq, hq0, hq1⟩ := Urandom.float01F64_val_bounds w1 w2 h2
  simp only [Urandom.bernoulliSample, hq]
  cases p with
  | nan => simp [Urandom.FloatVal.fle]
  | inf b => cases b <;> simp [Urandom.FloatVal.fle]
  | fin r =>
    simp only [Urandom.FloatVal.fle, decide_eq_true_eq]
    constructor
    · intro h1
      linarith
    · intro h0
      refine decide_eq_false ?_
      intro hqr
      linarith

/-- Witness for the Bernoulli extremes at `p = 1.0` and zero raw words. -/
theorem bernoulli_extreme_p_witness :
    ((0 : Nat) < 2 ^ 64) ∧
    ((Urandom.FloatVal.fle (.fin 1) (.fin 1) = true →
        Urandom.bernoulliSample (.fin 1) 0 0 = true) ∧
     (Urandom.FloatVal.fle (.fin 1) (.fin 0) = true →
        Urandom.bernoulliSample (.fin 1) 0 0 = false)) :=
  ⟨by norm_num, bernoulli_extreme_p (.fin 1) 0 0 (by norm_num)⟩

namespace Urandom

/-! ## Normal and exponential constructors, from `src/distr/normal.rs`
and `src/distr/exp.rs`; ziggurat lookup from `src/distr/ziggurat.rs` -/

/-- `NormalError` from `src/distr/normal.rs`. -/
inductive NormalError where
  | meanTooSmall : NormalError
  | badVariance : NormalError
deriving DecidableEq

/-- `ExpError` from `src/distr/exp.rs`. -/
inductive ExpError where
  | lambdaTooSmall : ExpError
deriving DecidableEq

/-- The `Normal` descriptor: mean and standard deviation. -/
structure NormalD where
  mean : FloatVal
  std_dev : FloatVal
deriving DecidableEq

/-- The `Exp` descriptor: `lambda` stored as `1.0 / lambda`. -/
structure ExpD where
  lambda_inverse : FloatVal
deriving DecidableEq

/-- `Normal::try_new` from `src/distr/normal.rs` (macro `impl_normal`):
reject only a non-finite standard deviation. -/
def normalTryNew (mean std_dev : FloatVal) : Except NormalError NormalD :=
  if !(FloatVal.isFinite std_dev) then .error .badVariance
  else .ok ⟨mean, std_dev⟩

/-- `Exp::try_new` from `src/distr/exp.rs` (macro `impl_exp`): reject
when `!(lambda >= 0.0)`, i.e. when the rate is negative or NaN. -/
def expTryNew (lambda : FloatVal) : Except ExpError ExpD :=
  if !(FloatVal.fle (.fin 0) lambda) then .error .lambdaTooSmall
  else .ok ⟨FloatVal.fdiv (.fin 1) lambda⟩

/-- Modelled from the spec: the ziggurat tables live in
`ziggurat_tables.rs`, which is not among the sources; the spec's 256
precomputed layers require an abscissa table with one terminating
boundary entry for the `x_tab[i + 1]` lookup, 257 entries total. -/
def ZIG_TABLE_LEN : Nat := 257

/-- Layer index of one ziggurat attempt, from `src/distr/ziggurat.rs`
(line 40): the low 8 bits of the raw 64-bit word. -/
def zigguratIndex (bits : Nat) : Nat := bits &&& 0xff

end Urandom

/-- C9 counterexample: `Normal::try_new` does not reject a negative
finite standard deviation: `try_new(0.0, -1.0)` succeeds even though
`-1.0 < 0.0`, contradicting the claim that construction fails exactly
when the standard deviation is negative or non-finite. -/
theorem normal_negative_std_dev_cx :
    Urandom.FloatVal.flt (.fin (-1)) (.fin 0) = true ∧
    Urandom.normalTryNew (.fin 0) (.fin (-1)) =
      .ok ⟨.fin 0, .fin (-1)⟩ := by
  constructor
  · decide
  · rfl

/-- C9 (amended): `Normal::try_new(mean, std_dev)` fails exactly when
the standard deviation is non-finite (a negative finite standard
deviation is accepted); `Exp::try_new(lambda)` fails exactly when the
rate is negative or NaN; and the sampling path's only fallible
operations, the two ziggurat table lookups at the layer index, are in
bounds for every raw word, so sampling never fails after construction. -/
theorem normal_exp_constructors (mean sd lam : Urandom.FloatVal) :
    ((∃ e, Urandom.normalTryNew mean sd = .error e) ↔
        Urandom.FloatVal.isFinite sd = false) ∧
    ((∃ e, Urandom.expTryNew lam = .error e) ↔
        (Urandom.FloatVal.flt lam (.fin 0) = true ∨ lam = .nan)) ∧
    (∀ bits : Nat, Urandom.zigguratIndex bits < 256 ∧
        Urandom.zigguratIndex bits + 1 < Urandom.ZIG_TABLE_LEN) := by
  refine ⟨?_, ?_, ?_⟩
  · cases sd <;>
      simp [Urandom.normalTryNew, Urandom.FloatVal.isFinite]
  · cases lam with
    | nan => exact ⟨fun _ => Or.inr rfl, fun _ => ⟨.lambdaTooSmall, rfl⟩⟩
    | inf b =>
      cases b with
      | true => exact ⟨fun _ => Or.inl rfl, fun _ => ⟨.lambdaTooSmall, rfl⟩⟩
      | false =>
        constructor
        · rintro ⟨e, he⟩
          exact absurd he (by simp [Urandom.expTryNew, Urandom.FloatVal.fle])
        · rintro (h | h)
          · exact absurd h (by simp [Urandom.FloatVal.flt])
          · exact absurd h (by simp)
    | fin q =>
      by_cases hq : (0 : ℚ) ≤ q
      · constructor
        · rintro ⟨e, he⟩
          rw [Urandom.expTryNew] at he
          simp [Urandom.FloatVal.fle, hq] at he
        · rintro (h | h)
          · rw [Urandom.FloatVal.flt] at h
            simp at h
            linarith
          · exact absurd h (by simp)
      · constructor
        · intro _
          left
          rw [Urandom.FloatVal.flt]
          simpa using not_le.mp hq
        · intro _
          refine ⟨.lambdaTooSmall, ?_⟩
          rw [Urandom.expTryNew]
          simp [Urandom.FloatVal.fle, hq]
  · intro bits
    have h : Urandom.zigguratIndex bits ≤ 0xff := Nat.and_le_right
    rw [Urandom.ZIG_TABLE_LEN]
    omega

namespace Urandom

/-! ## Uniform float constructors, from `src/distr/uniform/float.rs` -/

/-- `UniformError` of the uniform module (`EmptyRange` raised by the
integer samplers, `NonFinite` by the float samplers). -/
inductive UniformError where
  | emptyRange : UniformError
  | nonFinite : UniformError
deriving DecidableEq

/-- The `UniformFloat` descriptor: `base` and `scale`. -/
structure UniformFloatD where
  base : FloatVal
  scale : FloatVal
deriving DecidableEq

/-- `UniformFloat::try_new` from `src/distr/uniform/float.rs`:
`scale = high - low`, `base = low - scale`; the finiteness check runs
only under `#[cfg(debug_assertions)]`, here the `dbg` flag. -/
def uniformFloatTryNew (dbg : Bool) (low high : FloatVal) :
    Except UniformError UniformFloatD :=
  let scale := FloatVal.fsub high low
  let base := FloatVal.fsub low scale
  if dbg && !(FloatVal.isFinite base && FloatVal.isFinite scale) then
    .error .nonFinite
  else .ok ⟨base, scale⟩

/-- `UniformFloat::try_new_inclusive`: delegates to `try_new`. -/
def uniformFloatTryNewInclusive (dbg : Bool) (low high : FloatVal) :
    Except UniformError UniformFloatD :=
  uniformFloatTryNew dbg low high

end Urandom

/-- Unfolding of `uniformFloatTryNew` with the two subtractions spelled
out. -/
theorem uniformFloatTryNew_eq (dbg : Bool) (low high : Urandom.FloatVal) :
    Urandom.uniformFloatTryNew dbg low high =
      if (dbg && !(Urandom.FloatVal.isFinite
            (Urandom.FloatVal.fsub low (Urandom.FloatVal.fsub high low)) &&
          Urandom.FloatVal.isFinite (Urandom.FloatVal.fsub high low))) = true
      then .error .nonFinite
      else .ok ⟨Urandom.FloatVal.fsub low (Urandom.FloatVal.fsub high low),
        Urandom.FloatVal.fsub high low⟩ := rfl

/-- C10 counterexample: with debug assertions enabled, the finite
reversed pair `low = MAX`, `high = -MAX` is rejected: the subtraction
`high - low` overflows to negative infinity, so `try_new` returns the
non-finite construction error even though both bounds are finite and
`low >= high`. -/
theorem uniform_float_try_new_cx :
    Urandom.FloatVal.isFinite (.fin Urandom.maxF64) = true ∧
    Urandom.FloatVal.isFinite (.fin (-Urandom.maxF64)) = true ∧
    Urandom.FloatVal.fle (.fin (-Urandom.maxF64)) (.fin Urandom.maxF64) = true ∧
    Urandom.uniformFloatTryNew true (.fin Urandom.maxF64) (.fin (-Urandom.maxF64)) =
      .error .nonFinite := by
  have hscale : Urandom.FloatVal.fsub (.fin (-Urandom.maxF64)) (.fin Urandom.maxF64) =
      .inf true := by
    have hle : (2 : ℚ) ^ 1024 - 2 ^ 970 ≤ abs ((-Urandom.maxF64) - Urandom.maxF64) := by
      rw [Urandom.maxF64, abs_of_nonpos (by norm_num)]
      norm_num
    simp only [Urandom.FloatVal.fsub]
    rw [if_pos hle,
      decide_eq_true (show (-Urandom.maxF64) - Urandom.maxF64 < 0 by
        rw [Urandom.maxF64]; norm_num)]
  refine ⟨rfl, rfl, ?_, ?_⟩
  · show decide ((-Urandom.maxF64) ≤ Urandom.maxF64) = true
    exact decide_eq_true (by rw [Urandom.maxF64]; norm_num)
  · rw [uniformFloatTryNew_eq, hscale]
    rfl

/-- C10 (amended): the uniform float constructors never validate the
range order: with debug assertions off, `try_new` and
`try_new_inclusive` return `Ok` for every pair of bounds (reversed,
empty or even non-finite); with debug assertions on, construction fails
exactly when the computed `base` or `scale` is non-finite — which a
finite reversed pair can trigger when `high - low` overflows. -/
theorem uniform_float_try_new_spec (low high : Urandom.FloatVal) :
    (∃ d, Urandom.uniformFloatTryNew false low high = .ok d) ∧
    (∀ dbg, Urandom.uniformFloatTryNewInclusive dbg low high =
        Urandom.uniformFloatTryNew dbg low high) ∧
    (∀ dbg, (∃ er, Urandom.uniformFloatTryNew dbg low high = .error er) ↔
        (dbg = true ∧
          (Urandom.FloatVal.isFinite
              (Urandom.FloatVal.fsub low (Urandom.FloatVal.fsub high low)) &&
            Urandom.FloatVal.isFinite (Urandom.FloatVal.fsub high low)) = false)) := by
  refine ⟨⟨_, rfl⟩, fun _ => rfl, ?_⟩
  intro dbg
  rw [uniformFloatTryNew_eq]
  cases dbg with
  | false => simp
  | true =>
    cases hAB : (Urandom.FloatVal.isFinite
        (Urandom.FloatVal.fsub low (Urandom.FloatVal.fsub high low)) &&
      Urandom.FloatVal.isFinite (Urandom.FloatVal.fsub high low)) with
    | false => simp
    | true => simp

namespace Urandom

/-! ## Uniform integer sampling (Lemire rejection), from
`src/distr/uniform/int.rs`

The macro `impl_uniform_int!` is generic over the raw-word width `W`
(32 for the 8/16-bit types, 64 otherwise) and the target type width
`Tw`; values of the target type are represented by their unsigned
`Tw`-bit patterns.  The sampling loop is embedded as recursion over the
list of raw words produced by the generator, returning `none` when the
list runs out with every word rejected.
-/

/-- `$wmul` with raw width `W`: full double-width product split into
high and low `W`-bit halves (`wmul32`/`wmul64` in the source). -/
def wmul (W a b : Nat) : Nat × Nat := ((a * b) >>> W, (a * b) &&& (2 ^ W - 1))

/-- The `UniformInt` descriptor: `base` and `range` as unsigned values. -/
structure UniformIntD where
  base : Nat
  range : Nat

/-- The loop of `UniformInt::sample`: `zone` starts as `range` and is
lazily replaced by `wrapping_sub(0, range) % range` on the first
rejection; a draw is accepted when the low product half reaches
`zone`. -/
def uniformIntSampleGo (W Tw base range : Nat) : Nat → List Nat → Option Nat
  | _, [] => none
  | zone, v :: vs =>
    if range = 0 then some (v % 2 ^ Tw)
    else
      let (msw, lsw) := wmul W v range
      if lsw ≥ zone then some ((base + msw) % 2 ^ Tw)
      else if zone = range then
        let zone := ((2 ^ W - range) % 2 ^ W) % range
        if lsw ≥ zone then some ((base + msw) % 2 ^ Tw)
        else uniformIntSampleGo W Tw base range zone vs
      else uniformIntSampleGo W Tw base range zone vs

/-- `UniformInt::sample` over a list of raw draws (`zone` initialised
to `range`). -/
def uniformIntSample (W Tw : Nat) (d : UniformIntD) (draws : List Nat) : Option Nat :=
  uniformIntSampleGo W Tw d.base d.range d.range draws

/-- Spec-side acceptance predicate: keep `v` exactly when the low half
of `v * range` is at least the threshold `t = 2^W mod range`. -/
def lemireAccept (W range v : Nat) : Bool :=
  decide (v * range % 2 ^ W ≥ 2 ^ W % range)

/-- The wide multiply computes division and remainder by `2^W`. -/
theorem wmul_eq (W a b : Nat) :
    wmul W a b = (a * b / 2 ^ W, a * b % 2 ^ W) := by
  rw [wmul, Nat.shiftRight_eq_div_pow, Nat.and_pow_two_sub_one_eq_mod]

/-- The lazily computed zone equals the threshold `2^W mod range`. -/
theorem zone_eq (W range : Nat) (h0 : 0 < range) (hle : range ≤ 2 ^ W) :
    ((2 ^ W - range) % 2 ^ W) % range = 2 ^ W % range := by
  have hN : 0 < 2 ^ W := Nat.pos_pow_of_pos _ (by norm_num)
  have h1 : (2 ^ W - range) % 2 ^ W = 2 ^ W - range := Nat.mod_eq_of_lt (by omega)
  rw [h1]
  conv_rhs => rw [← Nat.sub_add_cancel hle]
  rw [Nat.add_mod_right]

end Urandom

namespace Urandom

/-- With `zone` already at the threshold, the loop returns the first
accepted draw, mapped to `base` plus the high product half. -/
theorem sampleGo_threshold (W Tw base range : Nat) (h0 : range ≠ 0)
    (hle : range ≤ 2 ^ W) :
    ∀ draws, uniformIntSampleGo W Tw base range (2 ^ W % range) draws =
      (draws.find? (lemireAccept W range)).map
        (fun v => (base + v * range / 2 ^ W) % 2 ^ Tw) := by
  intro draws
  induction draws with
  | nil => rfl
  | cons v vs ih =>
    have hrpos : 0 < range := Nat.pos_of_ne_zero h0
    have htlt : 2 ^ W % range < range := Nat.mod_lt _ hrpos
    simp only [uniformIntSampleGo, wmul_eq]
    rw [if_neg h0]
    by_cases hacc : 2 ^ W % range ≤ v * range % 2 ^ W
    · rw [if_pos hacc,
        List.find?_cons_of_pos _ (show lemireAccept W range v = true from decide_eq_true hacc)]
      rfl
    · rw [if_neg hacc, if_neg (Nat.ne_of_lt htlt), ih,
        List.find?_cons_of_neg _ (by simp [lemireAccept, hacc])]

/-- From its initial `zone = range`, the loop computes the first
accepted draw under the threshold acceptance test. -/
theorem uniformIntSample_eq_find (W Tw : Nat) (d : UniformIntD) (draws : List Nat)
    (h0 : d.range ≠ 0) (hle : d.range ≤ 2 ^ W) :
    uniformIntSample W Tw d draws =
      (draws.find? (lemireAccept W d.range)).map
        (fun v => (d.base + v * d.range / 2 ^ W) % 2 ^ Tw) := by
  cases draws with
  | nil => rfl
  | cons v vs =>
    have hrpos : 0 < d.range := Nat.pos_of_ne_zero h0
    have htlt : 2 ^ W % d.range < d.range := Nat.mod_lt _ hrpos
    rw [uniformIntSample]
    simp only [uniformIntSampleGo, wmul_eq]
    rw [if_neg h0]
    by_cases hacc1 : d.range ≤ v * d.range % 2 ^ W
    · rw [if_pos hacc1,
        List.find?_cons_of_pos _
          (show lemireAccept W d.range v = true from
            decide_eq_true (le_trans (le_of_lt htlt) hacc1))]
      rfl
    · rw [if_neg hacc1, if_true, zone_eq W d.range hrpos hle]
      by_cases hacc2 : 2 ^ W % d.range ≤ v * d.range % 2 ^ W
      · rw [if_pos hacc2,
          List.find?_cons_of_pos _
            (show lemireAccept W d.range v = true from decide_eq_true hacc2)]
        rfl
      · rw [if_neg hacc2, sampleGo_threshold W Tw d.base d.range h0 hle vs,
          List.find?_cons_of_neg _ (by simp [lemireAccept, hacc2])]

end Urandom

namespace Urandom

/-- Ceiling division bound: `⌈a/r⌉ ≤ v` iff `a ≤ v * r`. -/
theorem ceil_le_iff (r a v : Nat) (hr : 0 < r) :
    (a + r - 1) / r ≤ v ↔ a ≤ v * r := by
  rw [Nat.div_le_iff_le_mul_add_pred hr, mul_comm v r]
  omega

/-- Ceiling division bound: `v < ⌈b/r⌉` iff `v * r < b`. -/
theorem lt_ceil_iff (r b v : Nat) (hr : 0 < r) (hb : 0 < b) :
    v < (b + r - 1) / r ↔ v * r < b := by
  rw [Nat.lt_iff_add_one_le, Nat.le_div_iff_mul_le hr, add_mul, one_mul]
  omega

/-- The multiples of `r` that land in `[a, b)` number
`⌈b/r⌉ - ⌈a/r⌉`, counted over any window `range N` past `⌈b/r⌉`. -/
theorem card_filter_mul_mem_Ico (N r a b : Nat) (hr : 0 < r) (hb : 0 < b)
    (hN : (b + r - 1) / r ≤ N) :
    ((Finset.range N).filter (fun v => a ≤ v * r ∧ v * r < b)).card =
      (b + r - 1) / r - (a + r - 1) / r := by
  have hIco : (Finset.range N).filter (fun v => a ≤ v * r ∧ v * r < b) =
      Finset.Ico ((a + r - 1) / r) ((b + r - 1) / r) := by
    ext v
    simp only [Finset.mem_filter, Finset.mem_range, Finset.mem_Ico]
    rw [ceil_le_iff r a v hr, lt_ceil_iff r b v hr hb]
    constructor
    · rintro ⟨hv, h⟩
      exact h
    · intro h
      refine ⟨?_, h⟩
      have hvlt : v < (b + r - 1) / r := (lt_ceil_iff r b v hr hb).mpr h.2
      omega
  rw [hIco, Nat.card_Ico]

/-- A draw is accepted with high half `k` exactly when its product
falls in the window `[k·2^W + t, (k+1)·2^W)`. -/
theorem lemire_accept_iff_window (W range k v : Nat) (h0 : 0 < range) :
    (lemireAccept W range v = true ∧ v * range / 2 ^ W = k) ↔
      (k * 2 ^ W + 2 ^ W % range ≤ v * range ∧ v * range < (k + 1) * 2 ^ W) := by
  have hN : 0 < 2 ^ W := Nat.pos_pow_of_pos _ (by norm_num)
  rw [lemireAccept, decide_eq_true_eq, ge_iff_le]
  constructor
  · rintro ⟨hacc, hdiv⟩
    have hmod := Nat.div_add_mod (v * range) (2 ^ W)
    rw [hdiv] at hmod
    have hmlt : v * range % 2 ^ W < 2 ^ W := Nat.mod_lt _ hN
    have hexp1 : k * 2 ^ W = 2 ^ W * k := by ring
    have hexp2 : (k + 1) * 2 ^ W = 2 ^ W * k + 2 ^ W := by ring
    omega
  · rintro ⟨hlo, hhi⟩
    have hdiv : v * range / 2 ^ W = k :=
      Nat.div_eq_of_lt_le (le_trans (Nat.le_add_right _ _) hlo) hhi
    refine ⟨?_, hdiv⟩
    have hmod := Nat.div_add_mod (v * range) (2 ^ W)
    rw [hdiv] at hmod
    have hexp1 : k * 2 ^ W = 2 ^ W * k := by ring
    omega

/-- Pure arithmetic of the two ceilings: with `N = r*q + t`, the
window `[k*N + t, (k+1)*N)` holds exactly `q` multiples of `r`. -/
theorem ceil_window_count (r q t k : Nat) (hr : 0 < r) :
    ((k + 1) * (r * q + t) + r - 1) / r - (k * (r * q + t) + t + r - 1) / r = q := by
  have hXa : k * (r * q + t) + t + r = r * (k * q) + ((k + 1) * t + r) := by ring
  have hXb : (k + 1) * (r * q + t) + r = r * ((k + 1) * q) + ((k + 1) * t + r) := by ring
  have ha : k * (r * q + t) + t + r - 1 = r * (k * q) + ((k + 1) * t + r - 1) := by omega
  have hb2 : (k + 1) * (r * q + t) + r - 1 = r * ((k + 1) * q) + ((k + 1) * t + r - 1) := by
    omega
  rw [ha, hb2, Nat.mul_add_div hr, Nat.mul_add_div hr]
  have hq1 : (k + 1) * q = k * q + q := by ring
  omega

/-- For every offset `k` below a nonzero `range`, exactly
`⌊2^W / range⌋` raw `W`-bit words are accepted and mapped to `k`. -/
theorem lemire_accept_count (W range k : Nat) (h0 : 0 < range)
    (hle : range ≤ 2 ^ W) (hk : k < range) :
    ((Finset.range (2 ^ W)).filter
      (fun v => lemireAccept W range v = true ∧ v * range / 2 ^ W = k)).card =
      2 ^ W / range := by
  have hN : 0 < 2 ^ W := Nat.pos_pow_of_pos _ (by norm_num)
  have hb : 0 < (k + 1) * 2 ^ W := by positivity
  have hsplit : 2 ^ W = range * (2 ^ W / range) + 2 ^ W % range :=
    (Nat.div_add_mod _ _).symm
  have hceilN : ((k + 1) * 2 ^ W + range - 1) / range ≤ 2 ^ W := by
    rw [Nat.div_le_iff_le_mul_add_pred h0]
    have hmul : (k + 1) * 2 ^ W ≤ range * 2 ^ W :=
      Nat.mul_le_mul_right _ (by omega)
    omega
  have hcongr : (Finset.range (2 ^ W)).filter
        (fun v => lemireAccept W range v = true ∧ v * range / 2 ^ W = k) =
      (Finset.range (2 ^ W)).filter
        (fun v => k * 2 ^ W + 2 ^ W % range ≤ v * range ∧
          v * range < (k + 1) * 2 ^ W) := by
    apply Finset.filter_congr
    intro v _
    rw [lemire_accept_iff_window W range k v h0]
  rw [hcongr,
    card_filter_mul_mem_Ico (2 ^ W) range (k * 2 ^ W + 2 ^ W % range)
      ((k + 1) * 2 ^ W) h0 hb hceilN]
  have hcw := ceil_window_count range (2 ^ W / range) (2 ^ W % range) k h0
  rw [← hsplit] at hcw
  exact hcw

end Urandom

/-- C1: for every uniform integer sampler over raw width `W` and type
width `Tw ≤ W` (the 8 integer instantiations use `(W,Tw)` of `(32,8)`,
`(32,16)`, `(64,32)`, `(64,64)`): when the stored `range` is 0 the
first raw word is returned directly (cast to the type width);
otherwise a raw word `v` is accepted exactly when the low half of the
double-width product `v * range` is at least `t = 2^W mod range`, the
accepted word yields `base + high_half` (wrapping at `2^Tw`), rejected
words are redrawn; for every offset `k < range` exactly
`⌊2^W / range⌋` raw words are accepted and mapped to it (equal
probability), and every output lies in `[base, base + range)` modulo
`2^Tw`. -/
theorem uniform_int_sample_lemire (W Tw : Nat) (d : Urandom.UniformIntD)
    (draws : List Nat) (hTwW : Tw ≤ W) (hrange : d.range < 2 ^ Tw)
    (hdraws : ∀ v ∈ draws, v < 2 ^ W) :
    (d.range = 0 → ∀ v vs, draws = v :: vs →
      Urandom.uniformIntSample W Tw d draws = some (v % 2 ^ Tw)) ∧
    (d.range ≠ 0 →
      Urandom.uniformIntSample W Tw d draws =
        (draws.find? (Urandom.lemireAccept W d.range)).map
          (fun v => (d.base + v * d.range / 2 ^ W) % 2 ^ Tw) ∧
      (∀ v, Urandom.lemireAccept W d.range v = true ↔
        v * d.range % 2 ^ W ≥ 2 ^ W % d.range) ∧
      (∀ k, k < d.range →
        ((Finset.range (2 ^ W)).filter
          (fun v => Urandom.lemireAccept W d.range v = true ∧
            v * d.range / 2 ^ W = k)).card = 2 ^ W / d.range) ∧
      (∀ o, Urandom.uniformIntSample W Tw d draws = some o →
        ∃ j, j < d.range ∧ o = (d.base + j) % 2 ^ Tw)) := by
  have hle : d.range ≤ 2 ^ W :=
    le_trans (le_of_lt hrange) (Nat.pow_le_pow_right (by norm_num) hTwW)
  constructor
  · intro h0 v vs hdr
    subst hdr
    simp only [Urandom.uniformIntSample, Urandom.uniformIntSampleGo]
    rw [if_pos h0]
  · intro h0
    have hrpos : 0 < d.range := Nat.pos_of_ne_zero h0
    have hfind := Urandom.uniformIntSample_eq_find W Tw d draws h0 hle
    refine ⟨hfind, ?_, ?_, ?_⟩
    · intro v
      rw [Urandom.lemireAccept, decide_eq_true_eq]
    · intro k hk
      exact Urandom.lemire_accept_count W d.range k hrpos hle hk
    · intro o ho
      rw [hfind] at ho
      rcases Option.map_eq_some'.mp ho with ⟨v, hv, hfo⟩
      have hvmem : v ∈ draws := List.mem_of_find?_eq_some hv
      have hvW : v < 2 ^ W := hdraws v hvmem
      have hN : 0 < 2 ^ W := Nat.pos_pow_of_pos _ (by norm_num)
      refine ⟨v * d.range / 2 ^ W, ?_, hfo.symm⟩
      rw [Nat.div_lt_iff_lt_mul hN]
      calc v * d.range < 2 ^ W * d.range :=
            mul_lt_mul_of_pos_right hvW hrpos
        _ = d.range * 2 ^ W := by ring

/-- Witness for the uniform integer sampler at `W = Tw = 8`,
`base = 3`, `range = 10`, one raw draw `200`. -/
theorem uniform_int_sample_lemire_witness :
    ((8 : Nat) ≤ 8 ∧
      (Urandom.UniformIntD.mk 3 10).range < 2 ^ 8 ∧
      (∀ v ∈ [200], v < 2 ^ 8)) ∧
    (((Urandom.UniformIntD.mk 3 10).range = 0 → ∀ v vs, [200] = v :: vs →
        Urandom.uniformIntSample 8 8 ⟨3, 10⟩ [200] = some (v % 2 ^ 8)) ∧
      ((Urandom.UniformIntD.mk 3 10).range ≠ 0 →
        Urandom.uniformIntSample 8 8 ⟨3, 10⟩ [200] =
          ([200].find? (Urandom.lemireAccept 8 (Urandom.UniformIntD.mk 3 10).range)).map
            (fun v => ((Urandom.UniformIntD.mk 3 10).base +
              v * (Urandom.UniformIntD.mk 3 10).range / 2 ^ 8) % 2 ^ 8) ∧
        (∀ v, Urandom.lemireAccept 8 (Urandom.UniformIntD.mk 3 10).range v = true ↔
          v * (Urandom.UniformIntD.mk 3 10).range % 2 ^ 8 ≥
            2 ^ 8 % (Urandom.UniformIntD.mk 3 10).range) ∧
        (∀ k, k < (Urandom.UniformIntD.mk 3 10).range →
          ((Finset.range (2 ^ 8)).filter
            (fun v => Urandom.lemireAccept 8 (Urandom.UniformIntD.mk 3 10).range v = true ∧
              v * (Urandom.UniformIntD.mk 3 10).range / 2 ^ 8 = k)).card =
            2 ^ 8 / (Urandom.UniformIntD.mk 3 10).range) ∧
        (∀ o, Urandom.uniformIntSample 8 8 ⟨3, 10⟩ [200] = some o →
          ∃ j, j < (Urandom.UniformIntD.mk 3 10).range ∧
            o = ((Urandom.UniformIntD.mk 3 10).base + j) % 2 ^ 8))) :=
  ⟨⟨le_refl 8, by norm_num, by simp⟩,
    uniform_int_sample_lemire 8 8 ⟨3, 10⟩ [200] (le_refl 8) (by norm_num) (by simp)⟩

namespace Urandom

/-! ## Block-buffering adapter, from `src/rng/block.rs`

`BlockRngImpl<T>` wraps a core `T` exposing `generate` and `jump`; its
cursor `index` counts bytes into the output block, with `!0u32` as the
exhausted sentinel.  The core is abstracted as a state type `C` with a
`generate` function returning the block (as bytes) and the advanced
core state.  Out-of-bounds buffer reads are modelled as `none`.  The
source reads the block once after optionally regenerating; here the
read is unfolded into each branch of that conditional. -/

/-- The `BlockRng` trait: block size in bytes, `generate`, `jump`. -/
structure BlockCore (C : Type) where
  size : Nat
  generate : C → List Nat × C
  jump : C → C

/-- The fields of `BlockRngImpl<T>`: core state, byte cursor, buffered
block. -/
structure BlockRngSt (C : Type) where
  state : C
  index : Nat
  random : List Nat

/-- Little-endian read of `n` bytes at offset `i` (`u32::from_le_bytes`
etc.); `none` models an out-of-bounds read. -/
def readBytesLE (l : List Nat) (i : Nat) : Nat → Option Nat
  | 0 => some 0
  | n + 1 =>
    match l.get? i, readBytesLE l (i + 1) n with
    | some b, some rest => some (b + 256 * rest)
    | _, _ => none

/-- `BlockRngImpl::next_u32`: regenerate when fewer than 4 unconsumed
bytes remain, read 4 bytes little-endian, advance the cursor by 4. -/
def blockNextU32 {C : Type} (g : BlockCore C) (s : BlockRngSt C) :
    Option (Nat × BlockRngSt C) :=
  if s.index > g.size - 4 then
    let random := (g.generate s.state).1
    let state := (g.generate s.state).2
    match readBytesLE random 0 4 with
    | some value => some (value, ⟨state, 0 + 4, random⟩)
    | none => none
  else
    match readBytesLE s.random s.index 4 with
    | some value => some (value, ⟨s.state, s.index + 4, s.random⟩)
    | none => none

/-- `BlockRngImpl::next_u64`: as `next_u32` with 8 bytes. -/
def blockNextU64 {C : Type} (g : BlockCore C) (s : BlockRngSt C) :
    Option (Nat × BlockRngSt C) :=
  if s.index > g.size - 8 then
    let random := (g.generate s.state).1
    let state := (g.generate s.state).2
    match readBytesLE random 0 8 with
    | some value => some (value, ⟨state, 0 + 8, random⟩)
    | none => none
  else
    match readBytesLE s.random s.index 8 with
    | some value => some (value, ⟨s.state, s.index + 8, s.random⟩)
    | none => none

/-- `BlockRngImpl::jump`: jump the core and mark the block exhausted. -/
def blockJump {C : Type} (g : BlockCore C) (s : BlockRngSt C) : BlockRngSt C :=
  ⟨g.jump s.state, SENTINEL, s.random⟩

/-- The full-block loop of `fill_bytes`: `n` blocks generated straight
into the destination, bypassing the buffer. -/
def blockFillFull {C : Type} (g : BlockCore C) : Nat → C → List Nat × C
  | 0, c => ([], c)
  | n + 1, c =>
    let r := (g.generate c).1
    let c2 := (g.generate c).2
    ((r ++ (blockFillFull g n c2).1), (blockFillFull g n c2).2)

/-- The remainder loop of `fill_bytes`: copy from the buffered block
starting at `min index len`, regenerate and restart at 0 while bytes
remain; on the final copy add the copied length to the cursor.  The
loop is fuel-indexed; the theorems show two units of fuel always
suffice. -/
def blockFillTail {C : Type} (g : BlockCore C) :
    Nat → BlockRngSt C → Nat → Option (List Nat × BlockRngSt C)
  | 0, _, _ => none
  | fuel + 1, s, need =>
    let start := min s.index s.random.length
    let len := min (s.random.length - start) need
    let chunk := (s.random.drop start).take len
    if need - len > 0 then
      match blockFillTail g fuel ⟨(g.generate s.state).2, 0, (g.generate s.state).1⟩
          (need - len) with
      | some (rest, s2) => some (chunk ++ rest, s2)
      | none => none
    else some (chunk, ⟨s.state, s.index + len, s.random⟩)

/-- `BlockRngImpl::fill_bytes` for a destination of `buflen` bytes:
whole blocks generated directly, then the remainder from the buffer. -/
def blockFillBytes {C : Type} (g : BlockCore C) (s : BlockRngSt C) (buflen : Nat) :
    Option (List Nat × BlockRngSt C) :=
  let full := (blockFillFull g (buflen / g.size) s.state).1
  let c2 := (blockFillFull g (buflen / g.size) s.state).2
  let rem := buflen % g.size
  if rem > 0 then
    match blockFillTail g (rem + 1) ⟨c2, s.index, s.random⟩ rem with
    | some (tail, s2) => some (full ++ tail, s2)
    | none => none
  else some (full, ⟨c2, s.index, s.random⟩)

/-- The cursor invariant: the buffered block has the advertised size
and the cursor is in bounds (at most the block size) or exactly the
sentinel. -/
def cursorInv {C : Type} (g : BlockCore C) (s : BlockRngSt C) : Prop :=
  s.random.length = g.size ∧ (s.index ≤ g.size ∨ s.index = SENTINEL)

end Urandom

namespace Urandom

/-- A little-endian read succeeds whenever it stays inside the block. -/
theorem readBytesLE_isSome (l : List Nat) :
    ∀ n i, i + n ≤ l.length → ∃ v, readBytesLE l i n = some v := by
  intro n
  induction n with
  | zero => exact fun i _ => ⟨0, rfl⟩
  | succ n ih =>
    intro i h
    have hi : i < l.length := by omega
    obtain ⟨r, hr⟩ := ih (i + 1) (by omega)
    simp only [readBytesLE]
    rw [List.get?_eq_get hi, hr]
    exact ⟨_, rfl⟩

/-- `next_u32` always succeeds under the invariant and re-establishes
it with an in-bounds cursor. -/
theorem blockNextU32_ok {C : Type} (g : BlockCore C) (s : BlockRngSt C)
    (hgen : ∀ c, ((g.generate c).1).length = g.size) (hsize : 8 ≤ g.size)
    (hS : g.size < SENTINEL) (hinv : cursorInv g s) :
    ∃ v s2, blockNextU32 g s = some (v, s2) ∧ cursorInv g s2 ∧
      s2.index ≤ g.size := by
  obtain ⟨hlen, hidx⟩ := hinv
  rw [blockNextU32]
  by_cases hc : s.index > g.size - 4
  · rw [if_pos hc]
    obtain ⟨v, hv⟩ := readBytesLE_isSome (g.generate s.state).1 4 0
      (by rw [hgen]; omega)
    simp only [hv]
    exact ⟨v, _, rfl, ⟨hgen _, Or.inl (show 0 + 4 ≤ g.size by omega)⟩,
      show 0 + 4 ≤ g.size by omega⟩
  · rw [if_neg hc]
    have hle : s.index + 4 ≤ g.size := by
      rcases hidx with h | h
      · omega
      · rw [h] at hc
        omega
    obtain ⟨v, hv⟩ := readBytesLE_isSome s.random 4 s.index (by omega)
    simp only [hv]
    exact ⟨v, _, rfl, ⟨hlen, Or.inl hle⟩, hle⟩

/-- `next_u64` always succeeds under the invariant and re-establishes
it with an in-bounds cursor. -/
theorem blockNextU64_ok {C : Type} (g : BlockCore C) (s : BlockRngSt C)
    (hgen : ∀ c, ((g.generate c).1).length = g.size) (hsize : 8 ≤ g.size)
    (hS : g.size < SENTINEL) (hinv : cursorInv g s) :
    ∃ v s2, blockNextU64 g s = some (v, s2) ∧ cursorInv g s2 ∧
      s2.index ≤ g.size := by
  obtain ⟨hlen, hidx⟩ := hinv
  rw [blockNextU64]
  by_cases hc : s.index > g.size - 8
  · rw [if_pos hc]
    obtain ⟨v, hv⟩ := readBytesLE_isSome (g.generate s.state).1 8 0
      (by rw [hgen]; omega)
    simp only [hv]
    exact ⟨v, _, rfl, ⟨hgen _, Or.inl (show 0 + 8 ≤ g.size by omega)⟩,
      show 0 + 8 ≤ g.size by omega⟩
  · rw [if_neg hc]
    have hle : s.index + 8 ≤ g.size := by
      rcases hidx with h | h
      · omega
      · rw [h] at hc
        omega
    obtain ⟨v, hv⟩ := readBytesLE_isSome s.random 8 s.index (by omega)
    simp only [hv]
    exact ⟨v, _, rfl, ⟨hlen, Or.inl hle⟩, hle⟩

/-- A tail-loop iteration whose copy finishes the request terminates
with the copied chunk and the cursor advanced by the copied length. -/
theorem blockFillTail_copy {C : Type} (g : BlockCore C) (s : BlockRngSt C)
    (need f : Nat) (h : need ≤ s.random.length - min s.index s.random.length) :
    blockFillTail g (f + 1) s need =
      some ((s.random.drop (min s.index s.random.length)).take need,
        ⟨s.state, s.index + need, s.random⟩) := by
  simp only [blockFillTail]
  rw [min_eq_right h]
  rw [if_neg (by omega)]

/-- A tail-loop iteration that cannot finish the request copies the
rest of the buffered block, regenerates, and recurses at cursor 0. -/
theorem blockFillTail_step {C : Type} (g : BlockCore C) (s : BlockRngSt C)
    (need fuel : Nat)
    (hterm : ¬ need ≤ s.random.length - min s.index s.random.length) :
    blockFillTail g (fuel + 1) s need =
      (match blockFillTail g fuel
          ⟨(g.generate s.state).2, 0, (g.generate s.state).1⟩
          (need - (s.random.length - min s.index s.random.length)) with
      | some (rest, s2) =>
          some ((s.random.drop (min s.index s.random.length)).take
            (s.random.length - min s.index s.random.length) ++ rest, s2)
      | none => none) := by
  simp only [blockFillTail]
  rw [min_eq_left (by omega), if_pos (by omega)]

/-- With two units of fuel the tail loop always succeeds, copies
exactly the requested bytes and leaves the cursor in bounds. -/
theorem blockFillTail_ok {C : Type} (g : BlockCore C)
    (hgen : ∀ c, ((g.generate c).1).length = g.size)
    (s : BlockRngSt C) (need f : Nat) (hneed : need < g.size)
    (hpos : 0 < need) (hrand : s.random.length = g.size) :
    ∃ out s2, blockFillTail g (f + 2) s need = some (out, s2) ∧
      out.length = need ∧ s2.random.length = g.size ∧ s2.index ≤ g.size := by
  by_cases hterm : need ≤ s.random.length - min s.index s.random.length
  · rw [blockFillTail_copy g s need (f + 1) hterm]
    refine ⟨_, _, rfl, ?_, hrand, ?_⟩
    · rw [List.length_take, List.length_drop]
      omega
    · show s.index + need ≤ g.size
      rcases Nat.le_total s.index s.random.length with hle2 | hle2
      · rw [min_eq_left hle2] at hterm
        omega
      · rw [min_eq_right hle2] at hterm
        omega
  · have hr := hgen s.state
    rw [show f + 2 = f + 1 + 1 from rfl, blockFillTail_step g s need (f + 1) hterm]
    have hterm2 : need - (s.random.length - min s.index s.random.length) ≤
        ((g.generate s.state).1).length -
          min (0 : Nat) ((g.generate s.state).1).length := by
      omega
    rw [blockFillTail_copy g ⟨(g.generate s.state).2, 0, (g.generate s.state).1⟩
      (need - (s.random.length - min s.index s.random.length)) f hterm2]
    refine ⟨_, _, rfl, ?_, hgen _, ?_⟩
    · dsimp only
      rw [List.length_append, List.length_take, List.length_take,
        List.length_drop, List.length_drop, min_self]
      omega
    · show (0 : Nat) + (need - (s.random.length - min s.index s.random.length)) ≤ g.size
      omega

/-- The full-block loop writes exactly `n` whole blocks. -/
theorem blockFillFull_len {C : Type} (g : BlockCore C)
    (hgen : ∀ c, ((g.generate c).1).length = g.size) :
    ∀ n c, ((blockFillFull g n c).1).length = n * g.size := by
  intro n
  induction n with
  | zero =>
    intro c
    simp [blockFillFull]
  | succ n ih =>
    intro c
    simp only [blockFillFull, List.length_append, hgen, ih]
    ring

/-- `fill_bytes` always succeeds under the invariant, writes exactly
the requested number of bytes and re-establishes the invariant. -/
theorem blockFillBytes_ok {C : Type} (g : BlockCore C) (s : BlockRngSt C)
    (hgen : ∀ c, ((g.generate c).1).length = g.size) (hsize : 8 ≤ g.size)
    (hinv : cursorInv g s) (n : Nat) :
    ∃ out s2, blockFillBytes g s n = some (out, s2) ∧ out.length = n ∧
      cursorInv g s2 := by
  obtain ⟨hlen, hidx⟩ := hinv
  have hdm := Nat.div_add_mod n g.size
  have hfull := blockFillFull_len g hgen (n / g.size) s.state
  have hmc : n / g.size * g.size = g.size * (n / g.size) := by ring
  rw [blockFillBytes]
  by_cases hrem : n % g.size > 0
  · rw [if_pos hrem]
    have hmod : n % g.size < g.size := Nat.mod_lt _ (by omega)
    obtain ⟨tail, s2, htail, htlen, hrand2, hidx2⟩ :=
      blockFillTail_ok g hgen ⟨(blockFillFull g (n / g.size) s.state).2, s.index,
        s.random⟩ (n % g.size) (n % g.size - 1 + 1 - 1) hmod hrem hlen
    rw [show n % g.size - 1 + 1 - 1 + 2 = n % g.size + 1 from by omega] at htail
    rw [htail]
    refine ⟨_, s2, rfl, ?_, hrand2, Or.inl hidx2⟩
    rw [List.length_append, hfull, htlen]
    omega
  · rw [if_neg hrem]
    refine ⟨_, _, rfl, ?_, hlen, hidx⟩
    rw [hfull]
    omega

end Urandom

/-- C7: under the cursor invariant (block of the advertised size,
cursor in bounds or exactly the sentinel), every operation of the
block-buffering adapter succeeds — all buffered reads are in bounds —
and re-establishes the invariant: `next_u32`/`next_u64` leave the
cursor at an in-bounds multiple, `fill_bytes` writes exactly the
requested bytes and leaves the cursor in bounds, and `jump` sets the
cursor to exactly the sentinel. -/
theorem blockRng_cursor_invariant {C : Type} (g : Urandom.BlockCore C)
    (s : Urandom.BlockRngSt C)
    (hgen : ∀ c, ((g.generate c).1).length = g.size)
    (hsize : 8 ≤ g.size) (hS : g.size < Urandom.SENTINEL)
    (hinv : Urandom.cursorInv g s) :
    (∃ v s2, Urandom.blockNextU32 g s = some (v, s2) ∧
      Urandom.cursorInv g s2 ∧ s2.index ≤ g.size) ∧
    (∃ v s2, Urandom.blockNextU64 g s = some (v, s2) ∧
      Urandom.cursorInv g s2 ∧ s2.index ≤ g.size) ∧
    (∀ n, ∃ out s2, Urandom.blockFillBytes g s n = some (out, s2) ∧
      out.length = n ∧ Urandom.cursorInv g s2) ∧
    (Urandom.cursorInv g (Urandom.blockJump g s) ∧
      (Urandom.blockJump g s).index = Urandom.SENTINEL) :=
  ⟨Urandom.blockNextU32_ok g s hgen hsize hS hinv,
   Urandom.blockNextU64_ok g s hgen hsize hS hinv,
   fun n => Urandom.blockFillBytes_ok g s hgen hsize hinv n,
   ⟨hinv.1, Or.inr rfl⟩, rfl⟩

/-- Witness for the cursor invariant on a concrete one-block core. -/
theorem blockRng_cursor_invariant_witness :
    ((∀ c : Unit, (((Urandom.BlockCore.mk 8
          (fun _ => (List.replicate 8 0, ())) id).generate c).1).length = 8) ∧
      (8 : Nat) ≤ 8 ∧ (8 : Nat) < Urandom.SENTINEL ∧
      Urandom.cursorInv (Urandom.BlockCore.mk 8 (fun _ => (List.replicate 8 0, ())) id)
        (Urandom.BlockRngSt.mk () Urandom.SENTINEL (List.replicate 8 0))) ∧
    ((∃ v s2, Urandom.blockNextU32
        (Urandom.BlockCore.mk 8 (fun _ => (List.replicate 8 0, ())) id)
        (Urandom.BlockRngSt.mk () Urandom.SENTINEL (List.replicate 8 0)) =
          some (v, s2) ∧
      Urandom.cursorInv (Urandom.BlockCore.mk 8 (fun _ => (List.replicate 8 0, ())) id) s2 ∧
      s2.index ≤ 8) ∧
    (∃ v s2, Urandom.blockNextU64
        (Urandom.BlockCore.mk 8 (fun _ => (List.replicate 8 0, ())) id)
        (Urandom.BlockRngSt.mk () Urandom.SENTINEL (List.replicate 8 0)) =
          some (v, s2) ∧
      Urandom.cursorInv (Urandom.BlockCore.mk 8 (fun _ => (List.replicate 8 0, ())) id) s2 ∧
      s2.index ≤ 8) ∧
    (∀ n, ∃ out s2, Urandom.blockFillBytes
        (Urandom.BlockCore.mk 8 (fun _ => (List.replicate 8 0, ())) id)
        (Urandom.BlockRngSt.mk () Urandom.SENTINEL (List.replicate 8 0)) n =
          some (out, s2) ∧
      out.length = n ∧
      Urandom.cursorInv (Urandom.BlockCore.mk 8 (fun _ => (List.replicate 8 0, ())) id) s2) ∧
    (Urandom.cursorInv (Urandom.BlockCore.mk 8 (fun _ => (List.replicate 8 0, ())) id)
        (Urandom.blockJump (Urandom.BlockCore.mk 8 (fun _ => (List.replicate 8 0, ())) id)
          (Urandom.BlockRngSt.mk () Urandom.SENTINEL (List.replicate 8 0))) ∧
      (Urandom.blockJump (Urandom.BlockCore.mk 8 (fun _ => (List.replicate 8 0, ())) id)
          (Urandom.BlockRngSt.mk () Urandom.SENTINEL (List.replicate 8 0))).index =
        Urandom.SENTINEL)) :=
  ⟨⟨fun _ => by simp, le_refl 8, by norm_num [Urandom.SENTINEL],
      ⟨by simp, Or.inr rfl⟩⟩,
    blockRng_cursor_invariant
      (Urandom.BlockCore.mk 8 (fun _ => (List.replicate 8 0, ())) id)
      (Urandom.BlockRngSt.mk () Urandom.SENTINEL (List.replicate 8 0))
      (fun _ => by simp) (le_refl 8) (by norm_num [Urandom.SENTINEL])
      ⟨by simp, Or.inr rfl⟩⟩
